import Mathlib

/-!
Verification of the segment-detection and timeline-reconciliation core of the
`podcast_ads` repository, shallowly embedded in Lean 4.

Conventions used throughout:
* Python floats are modelled as rationals (`ℚ`); all arithmetic in the embedded
  code paths is exact at this granularity.
* Fallible Python code (code that can raise) is modelled with `Except String`;
  the error string names the Python exception class.
* JSON-ish dynamic values flowing through segment dicts are modelled by `TVal`
  (a number, a colon-delimited numeric timestamp string given by its fields,
  or `None`/missing).
-/

/-! ## Timestamp codec (src/podcast_ads/utils.py) -/

/-- A dynamic value sitting in a segment dict's `start`/`end` slot:
`none` models Python `None` (or a missing key), `num q` a JSON number, and
`vstr fields` a string of colon-separated numeric fields (so `"00:01:30"` is
`vstr [0, 1, 30]` and a plain numeric string `"90.5"` is `vstr [181/2]`). -/
inductive TVal where
  | none : TVal
  | num (q : ℚ) : TVal
  | vstr (fields : List ℚ) : TVal
deriving DecidableEq

/-- Embedding of `utils.parse_timestamp`: `None` and the empty string map to
`0.0`, numbers pass through, and a colon-split string with 1/2/3 fields is read
as seconds / `M:S` / `H:M:S`; any other field count raises `ValueError`. -/
def parse_timestamp : TVal → Except String ℚ
  | TVal.none => Except.ok 0
  | TVal.num q => Except.ok q
  | TVal.vstr [] => Except.ok 0
  | TVal.vstr [s] => Except.ok s
  | TVal.vstr [m, s] => Except.ok (m * 60 + s)
  | TVal.vstr [h, m, s] => Except.ok (h * 3600 + m * 60 + s)
  | TVal.vstr _ => Except.error "ValueError"

/-- Embedding of Python's builtin `float(...)` coercion as used by
`main._generate_lua_script` and the midpoint filters: it accepts a number or a
single-field numeric string, and raises `ValueError` on a colon-delimited
timestamp string (and `TypeError` on `None`, though all call sites guard
`None` before coercing). -/
def pyFloat : TVal → Except String ℚ
  | TVal.num q => Except.ok q
  | TVal.vstr [s] => Except.ok s
  | TVal.vstr _ => Except.error "ValueError"
  | TVal.none => Except.error "TypeError"

/-- Embedding of `utils.seconds_to_timestamp`: `divmod(seconds, 60)` twice and
an `HH:MM:SS.mmm` f-string. `divmod` on floats is floor-based, the hour and
minute fields are integral, and the `%06.3f` seconds field rounds to
millisecond precision (Python rounds ties to even on the underlying binary
float; the rational model uses round-half-up, which agrees except on exact
half-millisecond ties and stays within the 1 ms tolerance either way). -/
def seconds_to_timestamp (seconds : ℚ) : TVal :=
  let m1 : ℤ := ⌊seconds / 60⌋
  let s : ℚ := seconds - 60 * m1
  let h : ℤ := ⌊(m1 : ℚ) / 60⌋
  let m : ℤ := m1 - 60 * h
  TVal.vstr [(h : ℚ), (m : ℚ), (round (s * 1000) : ℚ) / 1000]

/-- C7: For every `x ≥ 0`, `parse_timestamp (seconds_to_timestamp x)` succeeds
and is within 1 millisecond of `x`: the formatter rounds the seconds field to
millisecond precision and the parser is its left inverse up to that rounding. -/
theorem parse_timestamp_roundtrip (x : ℚ) (hx : 0 ≤ x) :
    ∃ y, parse_timestamp (seconds_to_timestamp x) = Except.ok y ∧
      |y - x| ≤ 1 / 1000 := by
  refine ⟨(⌊(⌊x / 60⌋ : ℚ) / 60⌋ : ℚ) * 3600
      + ((⌊x / 60⌋ - 60 * ⌊(⌊x / 60⌋ : ℚ) / 60⌋ : ℤ) : ℚ) * 60
      + (round ((x - 60 * ⌊x / 60⌋) * 1000) : ℚ) / 1000, rfl, ?_⟩
  have h1 : |(round ((x - 60 * ⌊x / 60⌋) * 1000) : ℚ)
      - (x - 60 * ⌊x / 60⌋) * 1000| ≤ 1 / 2 := by
    rw [abs_sub_comm]
    exact abs_sub_round _
  have hgoal :
      ((⌊(⌊x / 60⌋ : ℚ) / 60⌋ : ℚ) * 3600
        + ((⌊x / 60⌋ - 60 * ⌊(⌊x / 60⌋ : ℚ) / 60⌋ : ℤ) : ℚ) * 60
        + (round ((x - 60 * ⌊x / 60⌋) * 1000) : ℚ) / 1000) - x
      = ((round ((x - 60 * ⌊x / 60⌋) * 1000) : ℚ)
          - (x - 60 * ⌊x / 60⌋) * 1000) / 1000 := by
    push_cast
    ring
  rw [hgoal, abs_div]
  rw [show |(1000 : ℚ)| = 1000 from by norm_num]
  linarith

/-- Witness for C7 at `x = 3661.2345`: the formatter yields `01:01:01.235`
(the half-millisecond rounds up), which parses back to `3661.235`, within
1 ms of the input. -/
theorem parse_timestamp_roundtrip_witness :
    ∃ y, parse_timestamp (seconds_to_timestamp (36612345 / 10000)) = Except.ok y ∧
      |y - 36612345 / 10000| ≤ 1 / 1000 :=
  parse_timestamp_roundtrip (36612345 / 10000) (by norm_num)

/-! ## Remove-segment dicts and the reconciler sweep
(src/podcast_ads/processor.py, AudioProcessor.cut_and_merge) -/

/-- A remove-segment dict as `cut_and_merge` receives it: the `start`/`end`
slots hold untrusted dynamic values. The Python key `end` is a Lean keyword,
so the field is named `stop`. -/
structure Seg where
  start : TVal
  stop : TVal
deriving DecidableEq

/-- A segment whose `start`/`end` slots are plain numbers. -/
def numSeg (a b : ℚ) : Seg := ⟨TVal.num a, TVal.num b⟩

/-- Parsing of one segment's two slots, as the `cut_and_merge` loop does with
`parse_timestamp(seg['start'])` and `parse_timestamp(seg['end'])`. -/
def parseSeg (seg : Seg) : Except String (ℚ × ℚ) := do
  let s ← parse_timestamp seg.start
  let e ← parse_timestamp seg.stop
  pure (s, e)

/-- The sort order `remove_segments.sort(key=lambda x: parse_timestamp(x['start']))`
induces on parsed spans: ascending start. -/
def byStart (p q : ℚ × ℚ) : Prop := p.1 ≤ q.1

instance : DecidableRel byStart := fun p q => inferInstanceAs (Decidable (p.1 ≤ q.1))

instance : IsTotal (ℚ × ℚ) byStart := ⟨fun a b => le_total a.1 b.1⟩

instance : IsTrans (ℚ × ℚ) byStart := ⟨fun _ _ _ => le_trans⟩

/-- The reconciler sweep loop of `cut_and_merge` over the start-sorted parsed
spans, carrying `current_time` (initially 0): a span with `start >= end` or
`start >= total_duration` is skipped, `end` is clamped to `total_duration`, a
keep-span `(current_time, start)` is emitted when `start > current_time`, and
the cursor advances to `max(current_time, end)`. The trailing
`if current_time < total_duration` keep-span of the Python code is folded into
the base case. -/
def sweep (total_duration : ℚ) : List (ℚ × ℚ) → ℚ → List (ℚ × ℚ)
  | [], current_time =>
      if current_time < total_duration then [(current_time, total_duration)] else []
  | p :: rest, current_time =>
      if p.1 < p.2 ∧ p.1 < total_duration then
        if p.1 > current_time then
          (current_time, p.1) :: sweep total_duration rest (max current_time (min p.2 total_duration))
        else
          sweep total_duration rest (max current_time (min p.2 total_duration))
      else
        sweep total_duration rest current_time

/-- The keep-list computation inside `cut_and_merge` (spec name: `reconcile`):
sort the remove segments by parsed start (Python's stable sort is modelled by
insertion sort — any stable sort produces the same list, and tie order is
immaterial to the sweep), then run the sweep from cursor 0. Parsing is applied
once per segment up front; in the source each `start` is parsed for the sort
key and re-parsed in the loop alongside `end`, with identical results and the
same `ValueError` failure condition. -/
def reconcile (remove_segments : List Seg) (total_duration : ℚ) :
    Except String (List (ℚ × ℚ)) := do
  let parsed ← remove_segments.mapM parseSeg
  pure (sweep total_duration (parsed.insertionSort byStart) 0)

/-- Observable outcome of `AudioProcessor.cut_and_merge`: an empty remove-list
returns early without producing any output file (`noSegments`); an empty
keep-list prints the "No content segments found to keep!" warning and returns
without producing an output file (`noKeep`); otherwise the keep-spans are
trimmed and concatenated into the output file (`rendered`). -/
inductive CutResult where
  | noSegments : CutResult
  | noKeep : CutResult
  | rendered (keep_segments : List (ℚ × ℚ)) : CutResult
deriving DecidableEq

/-- Embedding of `AudioProcessor.cut_and_merge` (the decision structure around
the reconciler sweep; probing the duration and the ffmpeg rendering of the
keep-spans are external effects). -/
def cut_and_merge (remove_segments : List Seg) (total_duration : ℚ) :
    Except String CutResult :=
  if remove_segments.isEmpty then Except.ok CutResult.noSegments
  else do
    let keep_segments ← reconcile remove_segments total_duration
    if keep_segments.isEmpty then pure CutResult.noKeep
    else pure (CutResult.rendered keep_segments)

/-! ## Declarative span vocabulary used to state the reconciler claims -/

/-- Total duration of a list of spans. -/
def sumLen (spans : List (ℚ × ℚ)) : ℚ := (spans.map (fun p => p.2 - p.1)).sum

/-- Clamp a span's end to the total duration. -/
def clampTo (D : ℚ) (p : ℚ × ℚ) : ℚ × ℚ := (p.1, min p.2 D)

/-- The spans that survive the sweep's validity checks (`start < end` and
`start < total_duration`), with ends clamped to the total duration. -/
def validSpans (l : List (ℚ × ℚ)) (D : ℚ) : List (ℚ × ℚ) :=
  (l.filter (fun p => decide (p.1 < p.2 ∧ p.1 < D))).map (clampTo D)

/-- Membership of a time point in the union of half-open spans `[start, end)`. -/
def inSpans (t : ℚ) (l : List (ℚ × ℚ)) : Prop := ∃ p ∈ l, p.1 ≤ t ∧ t < p.2

instance (t : ℚ) (l : List (ℚ × ℚ)) : Decidable (inSpans t l) :=
  inferInstanceAs (Decidable (∃ p ∈ l, p.1 ≤ t ∧ t < p.2))

/-- Measure of the union of a start-sorted list of spans, by a left-to-right
sweep holding the rightmost end seen so far in the cursor. -/
def unionLenAux : List (ℚ × ℚ) → ℚ → ℚ
  | [], _ => 0
  | p :: rest, c => max 0 (p.2 - max p.1 c) + unionLenAux rest (max c p.2)

/-- Duration of the union of an arbitrary list of spans: sort by start, then
sweep. -/
def unionLen (spans : List (ℚ × ℚ)) : ℚ :=
  unionLenAux (spans.insertionSort byStart) 0

/-- Well-formed keep-list structure from cursor `c`: starts are at or after
`c`, every span has positive length, and each span's end precedes the next
span's start. -/
def KeepChain (c : ℚ) : List (ℚ × ℚ) → Prop
  | [] => True
  | p :: rest => c ≤ p.1 ∧ p.1 < p.2 ∧ KeepChain p.2 rest

/-! ## Structural lemmas about the sweep -/

theorem sumLen_cons (p : ℚ × ℚ) (l : List (ℚ × ℚ)) :
    sumLen (p :: l) = (p.2 - p.1) + sumLen l := by
  simp [sumLen]

theorem unionLenAux_cons (p : ℚ × ℚ) (l : List (ℚ × ℚ)) (c : ℚ) :
    unionLenAux (p :: l) c = max 0 (p.2 - max p.1 c) + unionLenAux l (max c p.2) := rfl

theorem clampTo_fst (D : ℚ) (p : ℚ × ℚ) : (clampTo D p).1 = p.1 := rfl

theorem clampTo_snd (D : ℚ) (p : ℚ × ℚ) : (clampTo D p).2 = min p.2 D := rfl

theorem inSpans_nil (t : ℚ) : ¬ inSpans t [] := by
  simp [inSpans]

theorem inSpans_cons {t : ℚ} {p : ℚ × ℚ} {l : List (ℚ × ℚ)} :
    inSpans t (p :: l) ↔ (p.1 ≤ t ∧ t < p.2) ∨ inSpans t l := by
  simp [inSpans]

theorem validSpans_nil (D : ℚ) : validSpans [] D = [] := rfl

theorem validSpans_cons_pos {p : ℚ × ℚ} {l : List (ℚ × ℚ)} {D : ℚ}
    (h : p.1 < p.2 ∧ p.1 < D) :
    validSpans (p :: l) D = (p.1, min p.2 D) :: validSpans l D := by
  simp [validSpans, List.filter_cons, h, clampTo]

theorem validSpans_cons_neg {p : ℚ × ℚ} {l : List (ℚ × ℚ)} {D : ℚ}
    (h : ¬(p.1 < p.2 ∧ p.1 < D)) :
    validSpans (p :: l) D = validSpans l D := by
  simp [validSpans, List.filter_cons, h]

theorem validSpans_start {q : ℚ × ℚ} {l : List (ℚ × ℚ)} {D : ℚ}
    (hq : q ∈ validSpans l D) : ∃ p ∈ l, q.1 = p.1 := by
  simp only [validSpans, List.mem_map, List.mem_filter] at hq
  obtain ⟨p, ⟨hpl, _⟩, rfl⟩ := hq
  exact ⟨p, hpl, rfl⟩

theorem keepChain_mono {c c' : ℚ} {l : List (ℚ × ℚ)} (h : c' ≤ c)
    (hl : KeepChain c l) : KeepChain c' l := by
  cases l with
  | nil => trivial
  | cons p rest => exact ⟨le_trans h hl.1, hl.2.1, hl.2.2⟩

theorem sweep_chain (D : ℚ) (l : List (ℚ × ℚ)) :
    ∀ c : ℚ, KeepChain c (sweep D l c) := by
  induction l with
  | nil =>
    intro c
    simp only [sweep]
    split_ifs with h
    · exact ⟨le_refl c, h, trivial⟩
    · trivial
  | cons p rest ih =>
    intro c
    simp only [sweep]
    split_ifs with hv he
    · have hp : p.1 ≤ max c (min p.2 D) :=
        le_max_of_le_right (le_min (le_of_lt hv.1) (le_of_lt hv.2))
      exact ⟨le_refl c, he, keepChain_mono hp (ih _)⟩
    · exact keepChain_mono (le_max_left _ _) (ih _)
    · exact ih c

theorem keepChain_le_start {c : ℚ} {l : List (ℚ × ℚ)} (h : KeepChain c l) :
    ∀ q ∈ l, c ≤ q.1 := by
  induction l generalizing c with
  | nil => intro q hq; cases hq
  | cons p rest ih =>
    intro q hq
    rcases List.mem_cons.mp hq with rfl | hq
    · exact h.1
    · exact le_trans (le_trans h.1 (le_of_lt h.2.1)) (ih h.2.2 q hq)

theorem keepChain_pos {c : ℚ} {l : List (ℚ × ℚ)} (h : KeepChain c l) :
    ∀ p ∈ l, p.1 < p.2 := by
  induction l generalizing c with
  | nil => intro p hp; cases hp
  | cons q rest ih =>
    intro p hp
    rcases List.mem_cons.mp hp with rfl | hp
    · exact h.2.1
    · exact ih h.2.2 p hp

theorem keepChain_pairwise {c : ℚ} {l : List (ℚ × ℚ)} (h : KeepChain c l) :
    l.Pairwise (fun p q => p.2 ≤ q.1) := by
  induction l generalizing c with
  | nil => exact List.Pairwise.nil
  | cons p rest ih =>
    exact List.Pairwise.cons (fun q hq => keepChain_le_start h.2.2 q hq) (ih h.2.2)

theorem keepChain_sorted {c : ℚ} {l : List (ℚ × ℚ)} (h : KeepChain c l) :
    l.Pairwise (fun p q => p.1 ≤ q.1) := by
  induction l generalizing c with
  | nil => exact List.Pairwise.nil
  | cons p rest ih =>
    exact List.Pairwise.cons
      (fun q hq => le_trans (le_of_lt h.2.1) (keepChain_le_start h.2.2 q hq))
      (ih h.2.2)

theorem sweep_cover (D : ℚ) (l : List (ℚ × ℚ)) :
    ∀ c t : ℚ, l.Pairwise byStart →
      (inSpans t (sweep D l c) ↔ (c ≤ t ∧ t < D ∧ ¬ inSpans t (validSpans l D))) := by
  induction l with
  | nil =>
    intro c t _
    simp only [sweep, validSpans_nil]
    split_ifs with h
    · simp [inSpans]
    · constructor
      · intro hin
        exact absurd hin (inSpans_nil t)
      · rintro ⟨h1, h2, _⟩
        exact absurd (lt_of_le_of_lt h1 h2) h
  | cons p rest ih =>
    intro c t hsort
    obtain ⟨hhead, htail⟩ := List.pairwise_cons.mp hsort
    have hnotrest : ∀ t' : ℚ, t' < p.1 → ¬ inSpans t' (validSpans rest D) := by
      intro t' ht' hin
      obtain ⟨q, hq, hq1, _⟩ := hin
      obtain ⟨q0, hq0, heq⟩ := validSpans_start hq
      have hpq : p.1 ≤ q0.1 := hhead q0 hq0
      rw [heq] at hq1
      linarith
    simp only [sweep]
    split_ifs with hv he
    · -- valid span, emitted keep-span (c, p.1)
      have hminD : p.1 < min p.2 D := lt_min hv.1 hv.2
      have hmax : max c (min p.2 D) = min p.2 D :=
        max_eq_right (le_of_lt (lt_trans he hminD))
      rw [hmax, validSpans_cons_pos hv, inSpans_cons, inSpans_cons,
        ih (min p.2 D) t htail]
      constructor
      · rintro (⟨h1, h2⟩ | ⟨h1, h2, h3⟩)
        · refine ⟨h1, lt_trans h2 hv.2, ?_⟩
          rintro (⟨hq1, _⟩ | hin)
          · exact absurd (lt_of_le_of_lt hq1 h2) (lt_irrefl _)
          · exact hnotrest t h2 hin
        · refine ⟨le_trans (le_of_lt (lt_trans he hminD)) h1, h2, ?_⟩
          rintro (⟨_, hlt⟩ | hin)
          · exact absurd (lt_of_le_of_lt h1 hlt) (lt_irrefl _)
          · exact h3 hin
      · rintro ⟨h1, h2, h3⟩
        by_cases ht : t < p.1
        · exact Or.inl ⟨h1, ht⟩
        · push_neg at ht
          refine Or.inr ⟨?_, h2, fun hin => h3 (Or.inr hin)⟩
          by_contra hlt
          push_neg at hlt
          exact h3 (Or.inl ⟨ht, hlt⟩)
    · -- valid span, no keep-span emitted (p.1 ≤ current cursor)
      push_neg at he
      rw [ih _ t htail, validSpans_cons_pos hv, inSpans_cons]
      constructor
      · rintro ⟨h1, h2, h3⟩
        refine ⟨le_trans (le_max_left _ _) h1, h2, ?_⟩
        rintro (⟨_, hq2⟩ | hin)
        · exact absurd (lt_of_le_of_lt (le_trans (le_max_right _ _) h1) hq2)
            (lt_irrefl _)
        · exact h3 hin
      · rintro ⟨h1, h2, h3⟩
        have hmin : min p.2 D ≤ t := by
          by_contra hlt
          push_neg at hlt
          exact h3 (Or.inl ⟨le_trans he h1, hlt⟩)
        exact ⟨max_le h1 hmin, h2, fun hin => h3 (Or.inr hin)⟩
    · rw [ih c t htail, validSpans_cons_neg hv]

theorem sweep_sumLen (D : ℚ) (l : List (ℚ × ℚ)) :
    ∀ c : ℚ, c ≤ D → (∀ p ∈ l, p.1 < p.2 ∧ p.1 < D) →
      sumLen (sweep D l c) = (D - c) - unionLenAux (l.map (clampTo D)) c := by
  induction l with
  | nil =>
    intro c hc _
    simp only [sweep, List.map_nil, unionLenAux]
    split_ifs with h
    · simp [sumLen]
    · have : c = D := le_antisymm hc (not_lt.mp h)
      simp [sumLen, this]
  | cons p rest ih =>
    intro c hc hv
    obtain ⟨hp, hrest⟩ := List.forall_mem_cons.mp hv
    have hpe : p.1 < min p.2 D := lt_min hp.1 hp.2
    simp only [sweep, List.map_cons, unionLenAux_cons, clampTo_fst, clampTo_snd]
    split_ifs with he
    · -- emitted keep-span (c, p.1)
      have hmax : max c (min p.2 D) = min p.2 D :=
        max_eq_right (le_of_lt (lt_trans he hpe))
      rw [hmax, sumLen_cons, ih (min p.2 D) (min_le_right _ _) hrest,
        max_eq_left (le_of_lt he),
        max_eq_right (by linarith : (0:ℚ) ≤ min p.2 D - p.1)]
      ring
    · push_neg at he
      rw [ih (max c (min p.2 D)) (max_le hc (min_le_right _ _)) hrest,
        max_eq_right he]
      rcases le_total (min p.2 D) c with hle | hle
      · rw [max_eq_left hle, max_eq_left (by linarith : min p.2 D - c ≤ 0)]
        ring
      · rw [max_eq_right hle, max_eq_right (by linarith : (0:ℚ) ≤ min p.2 D - c)]
        ring

/-! ## Bridging lemmas: parsing and sorting inside reconcile -/

theorem mapM_parseSeg_num (l : List (ℚ × ℚ)) :
    (l.map (fun p => numSeg p.1 p.2)).mapM parseSeg = Except.ok l := by
  induction l with
  | nil => rfl
  | cons p rest ih =>
    simp only [List.map_cons, List.mapM_cons, ih]
    rfl

theorem mapM_parseSeg_ok {P : ℚ × ℚ → Prop} (segs : List Seg)
    (h : ∀ s ∈ segs, ∃ v, parseSeg s = Except.ok v ∧ P v) :
    ∃ l, segs.mapM parseSeg = Except.ok l ∧ ∀ v ∈ l, P v := by
  induction segs with
  | nil => exact ⟨[], rfl, by intro v hv; cases hv⟩
  | cons s rest ih =>
    obtain ⟨hs, hrest⟩ := List.forall_mem_cons.mp h
    obtain ⟨v, hv, hPv⟩ := hs
    obtain ⟨l, hl, hPl⟩ := ih hrest
    refine ⟨v :: l, ?_, ?_⟩
    · simp only [List.mapM_cons, hv, hl]
      rfl
    · intro w hw
      rcases List.mem_cons.mp hw with rfl | hw
      · exact hPv
      · exact hPl w hw

theorem reconcile_numSegs (segs : List (ℚ × ℚ)) (D : ℚ) :
    reconcile (segs.map (fun p => numSeg p.1 p.2)) D =
      Except.ok (sweep D (segs.insertionSort byStart) 0) := by
  unfold reconcile
  rw [mapM_parseSeg_num]
  rfl

theorem sweep_invalid (D : ℚ) (l : List (ℚ × ℚ)) (c : ℚ)
    (h : ∀ p ∈ l, ¬(p.1 < p.2 ∧ p.1 < D)) :
    sweep D l c = if c < D then [(c, D)] else [] := by
  induction l with
  | nil => rfl
  | cons p rest ih =>
    obtain ⟨hp, hrest⟩ := List.forall_mem_cons.mp h
    simp only [sweep, if_neg hp]
    exact ih hrest

theorem insertionSort_map_clampTo (D : ℚ) (l : List (ℚ × ℚ)) :
    (l.insertionSort byStart).map (clampTo D) =
      (l.map (clampTo D)).insertionSort byStart :=
  List.map_insertionSort byStart byStart (clampTo D) l (fun _ _ _ _ => Iff.rfl)

/-! ## Claims about the reconciler (C1, C2, C3, C5, C10) -/

/-- C1: For every remove-list whose entries parse to time spans (`start ≥ 0`,
`start < end`, `start < totalDuration`, ends clamped to `totalDuration`), the
keep-list computed by the reconciler sweep in `cut_and_merge` has total
duration `totalDuration` minus the duration of the union of the remove-spans;
in particular remove-spans `[(10,20),(15,30)]` over `totalDuration = 100`
reconcile to the keep-list `[(0,10),(30,100)]` (union, not naive
subtraction). -/
theorem keepList_duration_eq_total_minus_union :
    (∀ (segs : List (ℚ × ℚ)) (D : ℚ), 0 < D →
      (∀ p ∈ segs, 0 ≤ p.1 ∧ p.1 < p.2 ∧ p.1 < D) →
      ∃ K, reconcile (segs.map (fun p => numSeg p.1 p.2)) D = Except.ok K ∧
        sumLen K = D - unionLen (segs.map (clampTo D))) ∧
    reconcile [numSeg 10 20, numSeg 15 30] 100 = Except.ok [(0, 10), (30, 100)] := by
  constructor
  · intro segs D hD hvalid
    refine ⟨sweep D (segs.insertionSort byStart) 0, reconcile_numSegs segs D, ?_⟩
    have hvalid' : ∀ p ∈ segs.insertionSort byStart, p.1 < p.2 ∧ p.1 < D := by
      intro p hp
      have := hvalid p ((List.mem_insertionSort byStart).mp hp)
      exact ⟨this.2.1, this.2.2⟩
    rw [sweep_sumLen D _ 0 (le_of_lt hD) hvalid', unionLen,
      ← insertionSort_map_clampTo]
    ring
  · rfl

/-- Witness for C1 at remove-spans `[(10,20),(15,30)]`, `D = 100`: the
keep-list duration is `100` minus the `20`-second union `[10,30)`. -/
theorem keepList_duration_witness :
    ∃ K, reconcile ([((10:ℚ), (20:ℚ)), (15, 30)].map (fun p => numSeg p.1 p.2)) 100
        = Except.ok K ∧
      sumLen K = 100 - unionLen ([((10:ℚ), (20:ℚ)), (15, 30)].map (clampTo 100)) := by
  refine keepList_duration_eq_total_minus_union.1 [(10, 20), (15, 30)] 100
    (by decide) ?_
  intro p hp
  rcases List.mem_cons.mp hp with rfl | hp
  · exact ⟨by decide, by decide, by decide⟩
  · rcases List.mem_cons.mp hp with rfl | hp
    · exact ⟨by decide, by decide, by decide⟩
    · cases hp

/-- C2: For every remove-list and every `totalDuration > 0`, the keep-list
produced by the reconciler sweep in `cut_and_merge` is sorted by start,
pairwise non-overlapping, every keep-span has positive length, and each point
of `[0, totalDuration)` lies in the union of the keep-spans exactly when it
does not lie in the union of the validated, clamped remove-spans: together
the two unions cover the timeline exactly once, with no gap and no double
coverage. -/
theorem keepList_invariants (segs : List (ℚ × ℚ)) (D : ℚ) (hD : 0 < D) :
    ∃ K, reconcile (segs.map (fun p => numSeg p.1 p.2)) D = Except.ok K ∧
      K.Pairwise (fun p q => p.1 ≤ q.1) ∧
      K.Pairwise (fun p q => p.2 ≤ q.1) ∧
      (∀ p ∈ K, p.1 < p.2) ∧
      (∀ t : ℚ, 0 ≤ t → t < D → (inSpans t K ↔ ¬ inSpans t (validSpans segs D))) := by
  refine ⟨sweep D (segs.insertionSort byStart) 0, reconcile_numSegs segs D,
    ?_, ?_, ?_, ?_⟩
  · exact keepChain_sorted (sweep_chain D _ 0)
  · exact keepChain_pairwise (sweep_chain D _ 0)
  · exact keepChain_pos (sweep_chain D _ 0)
  · intro t ht0 htD
    have hperm : List.Perm (validSpans (segs.insertionSort byStart) D)
        (validSpans segs D) :=
      ((List.perm_insertionSort byStart segs).filter _).map _
    have hcov := sweep_cover D (segs.insertionSort byStart) 0 t
      (List.sorted_insertionSort byStart segs)
    rw [hcov]
    constructor
    · rintro ⟨_, _, hnot⟩ hin
      obtain ⟨p, hp, hpt⟩ := hin
      exact hnot ⟨p, hperm.mem_iff.mpr hp, hpt⟩
    · intro hnot
      refine ⟨ht0, htD, fun hin => ?_⟩
      obtain ⟨p, hp, hpt⟩ := hin
      exact hnot ⟨p, hperm.mem_iff.mp hp, hpt⟩

/-- Witness for C2 at remove-spans `[(15,30),(10,20),(7,3)]` (unsorted, with
one degenerate entry), `D = 100`. -/
theorem keepList_invariants_witness :
    ∃ K, reconcile ([((15:ℚ), (30:ℚ)), (10, 20), (7, 3)].map
        (fun p => numSeg p.1 p.2)) 100 = Except.ok K ∧
      K.Pairwise (fun p q => p.1 ≤ q.1) ∧
      K.Pairwise (fun p q => p.2 ≤ q.1) ∧
      (∀ p ∈ K, p.1 < p.2) ∧
      (∀ t : ℚ, 0 ≤ t → t < 100 →
        (inSpans t K ↔ ¬ inSpans t (validSpans [(15, 30), (10, 20), (7, 3)] 100))) :=
  keepList_invariants [(15, 30), (10, 20), (7, 3)] 100 (by decide)

/-- C3 counterexample: there is no maximum-single-segment-duration ceiling in
the code. The 395-second segment `(5,400)` over `totalDuration = 400` is NOT
dropped before the reconciler runs: it shapes the keep-list (`[(0,5)]`),
whereas dropping it would have produced the full keep-list `[(0,400)]`. -/
theorem no_max_duration_ceiling_counterexample :
    reconcile [numSeg 5 400] 400 = Except.ok [(0, 5)] ∧
    reconcile [] 400 = Except.ok [(0, 400)] ∧
    ([((0:ℚ), (5:ℚ))] : List (ℚ × ℚ)) ≠ [(0, 400)] := by
  refine ⟨rfl, rfl, ?_⟩
  decide

/-- C3 amended: the code applies no duration ceiling at all. A single segment
`(s, e)` with `0 < s < e ≤ D` is always retained and cut, however long it is:
the keep-list is `[(0, s)]` plus a tail span `[(e, D)]` when `e < D`. -/
theorem no_max_duration_ceiling (s e D : ℚ) (hs : 0 < s) (hse : s < e)
    (heD : e ≤ D) :
    reconcile [numSeg s e] D =
      Except.ok ((0, s) :: if e < D then [(e, D)] else []) := by
  have h := reconcile_numSegs [(s, e)] D
  simp only [List.map_cons, List.map_nil] at h
  rw [h]
  have hsD : s < D := lt_of_lt_of_le hse heD
  have hsort : ([((s:ℚ), (e:ℚ))] : List (ℚ × ℚ)).insertionSort byStart = [(s, e)] := rfl
  rw [hsort]
  simp only [sweep, if_pos (And.intro hse hsD), if_pos hs,
    min_eq_left heD, max_eq_right (le_of_lt (lt_trans hs hse))]

/-- Witness for C3's amended claim at `(s,e) = (5,400)`, `D = 400`: the
395-second segment (far over the supposed 300-second ceiling) is retained. -/
theorem no_max_duration_ceiling_witness :
    reconcile [numSeg 5 400] 400 =
      Except.ok ((0, 5) :: if (400:ℚ) < 400 then [(400, 400)] else []) :=
  no_max_duration_ceiling 5 400 400 (by decide) (by decide) (by decide)

/-- C5: Reconciling an empty remove-list over any `D > 0` yields the single
keep-span `(0, D)`; reconciling the single remove-span `(0, D)` over `D`
yields the empty keep-list, and `cut_and_merge` then takes the
warn-and-abort branch (`noKeep`), refusing to produce an output file, rather
than silently rendering a degenerate or empty one. -/
theorem reconcile_empty_and_total :
    (∀ D : ℚ, 0 < D → reconcile [] D = Except.ok [(0, D)]) ∧
    (∀ D : ℚ, 0 < D → reconcile [numSeg 0 D] D = Except.ok [] ∧
      cut_and_merge [numSeg 0 D] D = Except.ok CutResult.noKeep) := by
  have hfull : ∀ D : ℚ, 0 < D → reconcile [numSeg 0 D] D = Except.ok [] := by
    intro D hD
    have h := reconcile_numSegs [(0, D)] D
    simp only [List.map_cons, List.map_nil] at h
    rw [h]
    have hsort : ([((0:ℚ), D)] : List (ℚ × ℚ)).insertionSort byStart = [(0, D)] := rfl
    rw [hsort]
    simp only [sweep, if_pos (And.intro hD hD), if_neg (lt_irrefl (0:ℚ)),
      min_self, max_eq_right (le_of_lt hD), if_neg (lt_irrefl D)]
  constructor
  · intro D hD
    have h := reconcile_numSegs [] D
    simp only [List.map_nil] at h
    rw [h]
    have hsort : (([] : List (ℚ × ℚ))).insertionSort byStart = [] := rfl
    rw [hsort]
    simp only [sweep, if_pos hD]
  · intro D hD
    refine ⟨hfull D hD, ?_⟩
    simp only [cut_and_merge, List.isEmpty_cons, Bool.false_eq_true, if_false,
      hfull D hD]
    rfl

/-- Witness for C5 at `D = 100`. -/
theorem reconcile_empty_and_total_witness :
    reconcile [] 100 = Except.ok [(0, 100)] ∧
    reconcile [numSeg 0 100] 100 = Except.ok [] ∧
    cut_and_merge [numSeg 0 100] 100 = Except.ok CutResult.noKeep :=
  ⟨reconcile_empty_and_total.1 100 (by decide),
   (reconcile_empty_and_total.2 100 (by decide)).1,
   (reconcile_empty_and_total.2 100 (by decide)).2⟩

/-- C10: A non-empty remove-list whose entries are all individually invalid
(parsed `start ≥ end`, or parsed `start ≥ totalDuration`) has every entry
skipped: the keep-list is the single span `(0, totalDuration)` and a
full-length copy of the input is rendered. An empty remove-list instead
returns early and produces no output file at all — the two "nothing to cut"
cases behave differently. -/
theorem invalid_entries_vs_empty_list (segs : List Seg) (D : ℚ)
    (hne : segs ≠ []) (hD : 0 < D)
    (hinv : ∀ s ∈ segs, ∃ v, parseSeg s = Except.ok v ∧ ¬(v.1 < v.2 ∧ v.1 < D)) :
    cut_and_merge segs D = Except.ok (CutResult.rendered [(0, D)]) ∧
    cut_and_merge [] D = Except.ok CutResult.noSegments ∧
    CutResult.rendered [((0:ℚ), D)] ≠ CutResult.noSegments := by
  refine ⟨?_, rfl, by intro h; cases h⟩
  obtain ⟨l, hl, hP⟩ := mapM_parseSeg_ok segs hinv
  have hie : segs.isEmpty = false := by
    cases segs with
    | nil => exact absurd rfl hne
    | cons a b => rfl
  have hsorted_inv : ∀ p ∈ l.insertionSort byStart, ¬(p.1 < p.2 ∧ p.1 < D) :=
    fun p hp => hP p ((List.mem_insertionSort byStart).mp hp)
  have hrec : reconcile segs D = Except.ok [(0, D)] := by
    unfold reconcile
    rw [hl]
    show Except.ok (sweep D (l.insertionSort byStart) 0) = _
    rw [sweep_invalid D _ 0 hsorted_inv, if_pos hD]
  simp only [cut_and_merge, hie, Bool.false_eq_true, if_false, hrec]
  rfl

/-- Witness for C10 at `segs = [(7,3),(200,300)]` (one degenerate span, one
entirely past the end), `D = 100`. -/
theorem invalid_entries_vs_empty_list_witness :
    cut_and_merge [numSeg 7 3, numSeg 200 300] 100 =
      Except.ok (CutResult.rendered [(0, 100)]) ∧
    cut_and_merge [] 100 = Except.ok CutResult.noSegments ∧
    CutResult.rendered [((0:ℚ), (100:ℚ))] ≠ CutResult.noSegments := by
  refine invalid_entries_vs_empty_list [numSeg 7 3, numSeg 200 300] 100
    (by intro h; cases h) (by decide) ?_
  intro s hs
  rcases List.mem_cons.mp hs with rfl | hs
  · exact ⟨(7, 3), rfl, by decide⟩
  · rcases List.mem_cons.mp hs with rfl | hs
    · exact ⟨(200, 300), rfl, by decide⟩
    · cases hs

/-! ## Text-side edit planning (src/podcast_ads/main.py) -/

/-- A transcript line / subtitle cue from the Whisper JSON:
`w_seg.get("start", 0)`, `w_seg.get("end", 0)` (numeric in Whisper output) and
`w_seg.get("text", "")`. The Python key `end` is again modelled as `stop`. -/
structure TranscriptSeg where
  start : ℚ
  stop : ℚ
  text : String
deriving DecidableEq

/-- Model of Python's `str.strip()`: drop whitespace from both ends. -/
def pyStrip (s : String) : String :=
  String.mk (((s.toList.dropWhile Char.isWhitespace).reverse.dropWhile
    Char.isWhitespace).reverse)

/-- Embedding of the skip-pair loop of `main._generate_lua_script`: entries
with a missing/`None` `start` or `end` are skipped, every other entry is
coerced with `float(...)` on both slots (raising `ValueError` on
colon-delimited timestamp strings) and emitted as a `(start, stop)` pair. -/
def generate_lua_skips : List Seg → Except String (List (ℚ × ℚ))
  | [] => Except.ok []
  | seg :: rest =>
    if seg.start = TVal.none ∨ seg.stop = TVal.none then generate_lua_skips rest
    else
      match pyFloat seg.start with
      | Except.error e => Except.error e
      | Except.ok a =>
        match pyFloat seg.stop with
        | Except.error e => Except.error e
        | Except.ok b =>
          match generate_lua_skips rest with
          | Except.error e => Except.error e
          | Except.ok tail => Except.ok ((a, b) :: tail)

/-- Embedding of the per-line ad test shared (as textually duplicated code) by
`main._generate_srt_file` and the clean-transcript filter in
`main._process_single_item_logic`: entries with a `None` slot are skipped, and
the test is `midpoint >= float(r_start) and midpoint <= float(r_end)` — note
the Python `and` short-circuit: `float(r_end)` is only evaluated when
`midpoint >= float(r_start)` already holds. -/
def is_ad_loop (midpoint : ℚ) : List Seg → Except String Bool
  | [] => Except.ok false
  | r :: rest =>
    if r.start = TVal.none ∨ r.stop = TVal.none then is_ad_loop midpoint rest
    else
      match pyFloat r.start with
      | Except.error e => Except.error e
      | Except.ok a =>
        if midpoint ≥ a then
          match pyFloat r.stop with
          | Except.error e => Except.error e
          | Except.ok b =>
            if midpoint ≤ b then Except.ok true else is_ad_loop midpoint rest
        else is_ad_loop midpoint rest

/-- Embedding of `main._generate_srt_file`'s line selection: lines with empty
stripped text are skipped, a line whose midpoint tests as an ad is dropped,
and every other line is emitted (with its stripped text) in order. The SRT
sequence numbers and time formatting are presentation detail. -/
def srt_filter (segments_to_remove : List Seg) :
    List TranscriptSeg → Except String (List TranscriptSeg)
  | [] => Except.ok []
  | w :: rest =>
    if pyStrip w.text = "" then srt_filter segments_to_remove rest
    else
      match is_ad_loop ((w.start + w.stop) / 2) segments_to_remove with
      | Except.error e => Except.error e
      | Except.ok true => srt_filter segments_to_remove rest
      | Except.ok false =>
        match srt_filter segments_to_remove rest with
        | Except.error e => Except.error e
        | Except.ok tail => Except.ok ({ w with text := pyStrip w.text } :: tail)

/-- Embedding of the clean-transcript filter in
`main._process_single_item_logic` (the `save_transcript` branch): same
structure as the SRT filter, collecting the kept lines' stripped text. -/
def transcript_filter (segments_to_remove : List Seg) :
    List TranscriptSeg → Except String (List String)
  | [] => Except.ok []
  | w :: rest =>
    if pyStrip w.text = "" then transcript_filter segments_to_remove rest
    else
      match is_ad_loop ((w.start + w.stop) / 2) segments_to_remove with
      | Except.error e => Except.error e
      | Except.ok true => transcript_filter segments_to_remove rest
      | Except.ok false =>
        match transcript_filter segments_to_remove rest with
        | Except.error e => Except.error e
        | Except.ok tail => Except.ok (pyStrip w.text :: tail)

/-- The declarative midpoint rule of the spec: the line's midpoint falls
inside some remove-span (the code's containment test is inclusive at both
ends). -/
def midpointIn (w : TranscriptSeg) (removes : List (ℚ × ℚ)) : Prop :=
  ∃ p ∈ removes, p.1 ≤ (w.start + w.stop) / 2 ∧ (w.start + w.stop) / 2 ≤ p.2

instance (w : TranscriptSeg) (removes : List (ℚ × ℚ)) :
    Decidable (midpointIn w removes) :=
  inferInstanceAs (Decidable (∃ p ∈ removes, _ ∧ _))

/-- The line-keeping rule as a Boolean predicate: nonempty stripped text and
midpoint outside every remove-span. -/
def keptLine (removes : List (ℚ × ℚ)) (w : TranscriptSeg) : Bool :=
  decide (pyStrip w.text ≠ "") && decide (¬ midpointIn w removes)

theorem numSeg_start (a b : ℚ) : (numSeg a b).start = TVal.num a := rfl

theorem numSeg_stop (a b : ℚ) : (numSeg a b).stop = TVal.num b := rfl

theorem pyFloat_num (q : ℚ) : pyFloat (TVal.num q) = Except.ok q := rfl

theorem is_ad_loop_num (mid : ℚ) (removes : List (ℚ × ℚ)) :
    ∃ b, is_ad_loop mid (removes.map (fun p => numSeg p.1 p.2)) = Except.ok b ∧
      (b = true ↔ ∃ p ∈ removes, p.1 ≤ mid ∧ mid ≤ p.2) := by
  induction removes with
  | nil => exact ⟨false, rfl, by simp⟩
  | cons p rest ih =>
    obtain ⟨b, hb, hiff⟩ := ih
    simp only [List.map_cons, is_ad_loop]
    rw [if_neg (by simp [numSeg])]
    simp only [numSeg_start, numSeg_stop, pyFloat_num]
    by_cases h1 : mid ≥ p.1
    · by_cases h2 : mid ≤ p.2
      · rw [if_pos h1, if_pos h2]
        refine ⟨true, rfl, ?_⟩
        constructor
        · intro _
          exact ⟨p, List.mem_cons_self p rest, h1, h2⟩
        · intro _
          rfl
      · rw [if_pos h1, if_neg h2, hb]
        refine ⟨b, rfl, ?_⟩
        rw [hiff]
        constructor
        · rintro ⟨q, hq, hqt⟩
          exact ⟨q, List.mem_cons_of_mem _ hq, hqt⟩
        · rintro ⟨q, hq, hqt⟩
          rcases List.mem_cons.mp hq with rfl | hq
          · exact absurd hqt.2 h2
          · exact ⟨q, hq, hqt⟩
    · rw [if_neg h1, hb]
      refine ⟨b, rfl, ?_⟩
      rw [hiff]
      constructor
      · rintro ⟨q, hq, hqt⟩
        exact ⟨q, List.mem_cons_of_mem _ hq, hqt⟩
      · rintro ⟨q, hq, hqt⟩
        rcases List.mem_cons.mp hq with rfl | hq
        · exact absurd hqt.1 h1
        · exact ⟨q, hq, hqt⟩

theorem srt_filter_num (removes : List (ℚ × ℚ)) (lines : List TranscriptSeg) :
    srt_filter (removes.map (fun p => numSeg p.1 p.2)) lines =
      Except.ok ((lines.filter (keptLine removes)).map
        (fun w => { w with text := pyStrip w.text })) := by
  induction lines with
  | nil => rfl
  | cons w rest ih =>
    simp only [srt_filter, List.filter_cons]
    by_cases ht : pyStrip w.text = ""
    · rw [if_pos ht]
      have hk : keptLine removes w = false := by
        simp [keptLine, ht]
      rw [hk]
      simp only [Bool.false_eq_true, if_false]
      exact ih
    · rw [if_neg ht]
      obtain ⟨b, hb, hiff⟩ := is_ad_loop_num ((w.start + w.stop) / 2) removes
      rw [hb]
      cases b with
      | true =>
        have hm : midpointIn w removes := hiff.mp rfl
        have hk : keptLine removes w = false := by
          simp [keptLine, hm]
        rw [hk]
        simp only [Bool.false_eq_true, if_false]
        exact ih
      | false =>
        have hm : ¬ midpointIn w removes := by
          intro hm
          exact absurd (hiff.mpr hm) (by simp)
        have hk : keptLine removes w = true := by
          simp [keptLine, ht, hm]
        rw [hk, if_pos rfl, ih]
        simp only [List.map_cons]

theorem transcript_filter_num (removes : List (ℚ × ℚ)) (lines : List TranscriptSeg) :
    transcript_filter (removes.map (fun p => numSeg p.1 p.2)) lines =
      Except.ok ((lines.filter (keptLine removes)).map (fun w => pyStrip w.text)) := by
  induction lines with
  | nil => rfl
  | cons w rest ih =>
    simp only [transcript_filter, List.filter_cons]
    by_cases ht : pyStrip w.text = ""
    · rw [if_pos ht]
      have hk : keptLine removes w = false := by
        simp [keptLine, ht]
      rw [hk]
      simp only [Bool.false_eq_true, if_false]
      exact ih
    · rw [if_neg ht]
      obtain ⟨b, hb, hiff⟩ := is_ad_loop_num ((w.start + w.stop) / 2) removes
      rw [hb]
      cases b with
      | true =>
        have hm : midpointIn w removes := hiff.mp rfl
        have hk : keptLine removes w = false := by
          simp [keptLine, hm]
        rw [hk]
        simp only [Bool.false_eq_true, if_false]
        exact ih
      | false =>
        have hm : ¬ midpointIn w removes := by
          intro hm
          exact absurd (hiff.mpr hm) (by simp)
        have hk : keptLine removes w = true := by
          simp [keptLine, ht, hm]
        rw [hk, if_pos rfl, ih]
        simp only [List.map_cons]

/-- C6: For every text-bearing unit with its own `(start, end)` and every list
of numeric remove-spans, the unit is kept in the clean SRT and clean
transcript output exactly when its stripped text is nonempty and its midpoint
`(start + end) / 2` does NOT fall inside any remove-span (containment is
inclusive at both ends); in particular the line `(100, 104)` against
remove-span `[90, 102]` is dropped (midpoint 102 is inside) and the line
`(100, 108)` against the same span is kept (midpoint 104 is outside). -/
theorem midpoint_filter_rule :
    (∀ (removes : List (ℚ × ℚ)) (lines : List TranscriptSeg),
      srt_filter (removes.map (fun p => numSeg p.1 p.2)) lines =
        Except.ok ((lines.filter (keptLine removes)).map
          (fun w => { w with text := pyStrip w.text })) ∧
      transcript_filter (removes.map (fun p => numSeg p.1 p.2)) lines =
        Except.ok ((lines.filter (keptLine removes)).map (fun w => pyStrip w.text))) ∧
    (∀ (removes : List (ℚ × ℚ)) (w : TranscriptSeg),
      keptLine removes w = true ↔ (pyStrip w.text ≠ "" ∧ ¬ midpointIn w removes)) ∧
    srt_filter [numSeg 90 102] [⟨100, 104, "line"⟩] = Except.ok [] ∧
    srt_filter [numSeg 90 102] [⟨100, 108, "line"⟩] =
      Except.ok [⟨100, 108, "line"⟩] := by
  refine ⟨fun removes lines => ⟨srt_filter_num removes lines,
    transcript_filter_num removes lines⟩, ?_, ?_, ?_⟩
  · intro removes w
    simp [keptLine]
  · have h := srt_filter_num [(90, 102)] [⟨100, 104, "line"⟩]
    simp only [List.map_cons, List.map_nil] at h
    rw [h]
    have hm : midpointIn ⟨100, 104, "line"⟩ [((90:ℚ), (102:ℚ))] :=
      ⟨(90, 102), List.mem_cons_self _ _, by norm_num, by norm_num⟩
    have hk : keptLine [((90:ℚ), (102:ℚ))] ⟨100, 104, "line"⟩ = false := by
      simp [keptLine, hm]
    simp [List.filter_cons, hk]
  · have h := srt_filter_num [(90, 102)] [⟨100, 108, "line"⟩]
    simp only [List.map_cons, List.map_nil] at h
    rw [h]
    have hm : ¬ midpointIn ⟨100, 108, "line"⟩ [((90:ℚ), (102:ℚ))] := by
      rintro ⟨p, hp, h1, h2⟩
      rcases List.mem_cons.mp hp with rfl | hp
      · norm_num at h2
      · cases hp
    have hk : keptLine [((90:ℚ), (102:ℚ))] ⟨100, 108, "line"⟩ = true := by
      unfold keptLine
      rw [decide_eq_true hm, Bool.and_true]
      decide
    simp only [List.filter_cons, hk, if_true, List.filter_nil, List.map_cons,
      List.map_nil]
    rfl

/-! ## C9: number-or-string timestamp shapes across the two sides -/

theorem cut_and_merge_ok (segs : List Seg) (D : ℚ) (K : List (ℚ × ℚ))
    (hne : segs.isEmpty = false) (h : reconcile segs D = Except.ok K) :
    cut_and_merge segs D =
      Except.ok (if K.isEmpty then CutResult.noKeep else CutResult.rendered K) := by
  simp only [cut_and_merge, hne, Bool.false_eq_true, if_false, h]
  show (if K.isEmpty = true then (pure CutResult.noKeep : Except String CutResult)
      else pure (CutResult.rendered K)) = _
  cases hK : K.isEmpty
  · rw [if_neg (by simp), if_neg (by simp)]
    rfl
  · rw [if_pos rfl, if_pos rfl]
    rfl

/-- C9 counterexample: the claim says any segment whose `start` or `end` slot
is a colon-delimited timestamp string makes the midpoint text filters raise
`ValueError`. It does not always: with remove-segment
`(start = 100, end = "02:00")` and the line `(0, 10)`, the midpoint 5 fails
the `midpoint >= float(r_start)` test first, Python's `and` short-circuits,
`float("02:00")` is never evaluated, and both filters complete without
raising — even though `float` on that very string raises `ValueError`. -/
theorem colon_end_short_circuit_counterexample :
    srt_filter [⟨TVal.num 100, TVal.vstr [2, 0]⟩] [⟨0, 10, "line"⟩] =
      Except.ok [⟨0, 10, "line"⟩] ∧
    transcript_filter [⟨TVal.num 100, TVal.vstr [2, 0]⟩] [⟨0, 10, "line"⟩] =
      Except.ok ["line"] ∧
    pyFloat (TVal.vstr [2, 0]) = Except.error "ValueError" := by
  have hge : ¬ (((0:ℚ) + 10) / 2 ≥ 100) := by norm_num
  have had : is_ad_loop (((0:ℚ) + 10) / 2) [⟨TVal.num 100, TVal.vstr [2, 0]⟩] =
      Except.ok false := by
    show (if ((0:ℚ) + 10) / 2 ≥ 100 then
        match pyFloat (TVal.vstr [2, 0]) with
        | Except.error e => Except.error e
        | Except.ok b =>
          if ((0:ℚ) + 10) / 2 ≤ b then Except.ok true
          else is_ad_loop (((0:ℚ) + 10) / 2) []
      else is_ad_loop (((0:ℚ) + 10) / 2) []) = Except.ok false
    rw [if_neg hge]
    rfl
  refine ⟨?_, ?_, rfl⟩
  · have h1 : srt_filter [⟨TVal.num 100, TVal.vstr [2, 0]⟩] [⟨0, 10, "line"⟩] =
        match is_ad_loop (((0:ℚ) + 10) / 2) [⟨TVal.num 100, TVal.vstr [2, 0]⟩] with
        | Except.error e => Except.error e
        | Except.ok true => Except.ok []
        | Except.ok false => Except.ok [⟨0, 10, "line"⟩] := rfl
    rw [h1, had]
  · have h1 : transcript_filter [⟨TVal.num 100, TVal.vstr [2, 0]⟩] [⟨0, 10, "line"⟩] =
        match is_ad_loop (((0:ℚ) + 10) / 2) [⟨TVal.num 100, TVal.vstr [2, 0]⟩] with
        | Except.error e => Except.error e
        | Except.ok true => Except.ok []
        | Except.ok false => Except.ok ["line"] := rfl
    rw [h1, had]

/-- C9 amended: a segment whose START slot is a colon-delimited timestamp
string (2 or 3 fields) makes the skip-script generator raise `ValueError`
always, and the SRT / clean-transcript midpoint filters raise `ValueError`
whenever at least one line with nonempty stripped text is processed (a
colon-delimited END slot raises in the generator too, but in the filters only
when short-circuiting reaches the end comparison); `AudioProcessor.
cut_and_merge` instead accepts the same segment by parsing it with
`parse_timestamp` — the text/script side is not total over the
number-or-string-timestamp shapes the detector interface permits. -/
theorem string_timestamp_totality_gap (f1 f2 : ℚ) (frest : List ℚ)
    (hfr : frest = [] ∨ ∃ f3, frest = [f3]) (e D : ℚ)
    (lines : List TranscriptSeg) (hne : ∃ w ∈ lines, pyStrip w.text ≠ "") :
    generate_lua_skips [⟨TVal.vstr (f1 :: f2 :: frest), TVal.num e⟩] =
      Except.error "ValueError" ∧
    srt_filter [⟨TVal.vstr (f1 :: f2 :: frest), TVal.num e⟩] lines =
      Except.error "ValueError" ∧
    transcript_filter [⟨TVal.vstr (f1 :: f2 :: frest), TVal.num e⟩] lines =
      Except.error "ValueError" ∧
    ∃ r, cut_and_merge [⟨TVal.vstr (f1 :: f2 :: frest), TVal.num e⟩] D =
      Except.ok r := by
  have hadErr : ∀ mid : ℚ,
      is_ad_loop mid [⟨TVal.vstr (f1 :: f2 :: frest), TVal.num e⟩] =
        Except.error "ValueError" := fun mid => rfl
  refine ⟨rfl, ?_, ?_, ?_⟩
  · clear hfr
    induction lines with
    | nil =>
      obtain ⟨w, hw, _⟩ := hne
      cases hw
    | cons w rest ih =>
      simp only [srt_filter]
      by_cases ht : pyStrip w.text = ""
      · rw [if_pos ht]
        apply ih
        obtain ⟨w', hw', hne'⟩ := hne
        rcases List.mem_cons.mp hw' with rfl | hmem
        · exact absurd ht hne'
        · exact ⟨w', hmem, hne'⟩
      · rw [if_neg ht, hadErr]
  · clear hfr
    induction lines with
    | nil =>
      obtain ⟨w, hw, _⟩ := hne
      cases hw
    | cons w rest ih =>
      simp only [transcript_filter]
      by_cases ht : pyStrip w.text = ""
      · rw [if_pos ht]
        apply ih
        obtain ⟨w', hw', hne'⟩ := hne
        rcases List.mem_cons.mp hw' with rfl | hmem
        · exact absurd ht hne'
        · exact ⟨w', hmem, hne'⟩
      · rw [if_neg ht, hadErr]
  · have hparse : ∃ v, parse_timestamp (TVal.vstr (f1 :: f2 :: frest)) =
        Except.ok v := by
      rcases hfr with rfl | ⟨f3, rfl⟩
      · exact ⟨f1 * 60 + f2, rfl⟩
      · exact ⟨f1 * 3600 + f2 * 60 + f3, rfl⟩
    obtain ⟨v, hv⟩ := hparse
    have hrec : reconcile [⟨TVal.vstr (f1 :: f2 :: frest), TVal.num e⟩] D =
        Except.ok (sweep D ([((v : ℚ), e)].insertionSort byStart) 0) := by
      unfold reconcile
      simp only [List.mapM_cons, List.mapM_nil, parseSeg, hv]
      rfl
    exact ⟨_, cut_and_merge_ok _ D _ rfl hrec⟩

/-- Witness for C9's amended claim: the segment `start = "00:01:30"`,
`end = 120` over one nonempty transcript line. -/
theorem string_timestamp_totality_gap_witness :
    generate_lua_skips [⟨TVal.vstr [0, 1, 30], TVal.num 120⟩] =
      Except.error "ValueError" ∧
    srt_filter [⟨TVal.vstr [0, 1, 30], TVal.num 120⟩] [⟨0, 10, "x"⟩] =
      Except.error "ValueError" ∧
    transcript_filter [⟨TVal.vstr [0, 1, 30], TVal.num 120⟩] [⟨0, 10, "x"⟩] =
      Except.error "ValueError" ∧
    ∃ r, cut_and_merge [⟨TVal.vstr [0, 1, 30], TVal.num 120⟩] 200 =
      Except.ok r :=
  string_timestamp_totality_gap 0 1 [30] (Or.inr ⟨30, rfl⟩) 120 200
    [⟨0, 10, "x"⟩] ⟨⟨0, 10, "x"⟩, List.mem_cons_self _ _, by decide⟩

/-! ## AI engine: windowing, accumulation, detector-output normalization
(src/podcast_ads/ai_engine.py) -/

/-- A JSON value, as flowing through the detector call results. -/
inductive Json where
  | null : Json
  | bool (b : Bool) : Json
  | num (q : ℚ) : Json
  | str (s : String) : Json
  | arr (xs : List Json) : Json
  | obj (fields : List (String × Json)) : Json

/-- Python truthiness of a JSON value, as in `if response_data:`. -/
def jsonTruthy : Json → Bool
  | Json.null => false
  | Json.bool b => b
  | Json.num q => decide (q ≠ 0)
  | Json.str s => decide (s ≠ "")
  | Json.arr [] => false
  | Json.arr (_ :: _) => true
  | Json.obj [] => false
  | Json.obj (_ :: _) => true

/-- Python `dict.get(key)` over the field list of an object (keys unique in a
dict; first match). -/
def getField : List (String × Json) → String → Option Json
  | [], _ => Option.none
  | f :: rest, k => if f.1 = k then Option.some f.2 else getField rest k

/-- Embedding of the normalization step of `AIEngine._call_gemini_chunk`
(after code-fence stripping): `decoded` is the outcome of `json.loads(text)`
(`Option.none` when it raises `JSONDecodeError`), and `recovered` is the
outcome of the structural-scan recovery — `re.search` for the bracketed
`segments_to_remove` group followed by `json.loads` on it — with
`Option.none` when the regex does not match or that inner `json.loads`
fails, both swallowed by `try/except`. A decoded bare list is wrapped as the
segments list; any other decoded value is returned as-is; on decode failure
the recovered list (or the empty list) is returned under
`segments_to_remove`. No branch can raise. -/
def normalize_chunk_response (decoded : Option Json)
    (recovered : Option (List Json)) : Json :=
  match decoded with
  | Option.some (Json.arr xs) =>
      Json.obj [("segments_to_remove", Json.arr xs),
        ("transcript_segments", Json.arr [])]
  | Option.some d => d
  | Option.none =>
      Json.obj [("segments_to_remove", Json.arr (recovered.getD [])),
        ("transcript_segments", Json.arr [])]

/-- Embedding of the per-window accumulation step in
`AIEngine.analyze_transcript`: `if response_data:
all_remove_segments.extend(response_data.get("segments_to_remove", []))`.
A falsy response is skipped; a truthy non-dict would raise `AttributeError`;
a missing key contributes nothing; a list value is appended wholesale (a
non-list value there would raise on `extend` — a string would extend
character-wise, folded into the error case here as the detector schema never
produces one). -/
def extend_remove_segments (acc : List Json) (response : Json) :
    Except String (List Json) :=
  if jsonTruthy response then
    match response with
    | Json.obj fields =>
      match getField fields "segments_to_remove" with
      | Option.some (Json.arr xs) => Except.ok (acc ++ xs)
      | Option.some _ => Except.error "TypeError"
      | Option.none => Except.ok acc
    | _ => Except.error "AttributeError"
  else Except.ok acc

/-- The accumulated remove-list over all window responses, in window order. -/
def accumulate_remove_segments (responses : List Json) :
    Except String (List Json) :=
  responses.foldlM extend_remove_segments []

/-- The analysis-window size and overlap hardcoded in
`AIEngine.analyze_transcript`. -/
def chunk_size_sec : ℚ := 600

/-- The overlap between consecutive analysis windows. -/
def overlap_sec : ℚ := 60

/-- The window start times generated by the chunking loop in
`AIEngine.analyze_transcript`: `start_time` begins at 0 and steps by
`chunk_size_sec - overlap_sec` while `start_time < file_duration`; in closed
form, the first `⌈file_duration / (chunk_size_sec - overlap_sec)⌉` multiples
of the step (see `mem_windowStarts` for the loop-guard characterization). -/
def windowStarts (file_duration : ℚ) : List ℚ :=
  (List.range (⌈file_duration / (chunk_size_sec - overlap_sec)⌉.toNat)).map
    (fun i : ℕ => (chunk_size_sec - overlap_sec) * (i : ℚ))

/-- One window's transcript slice: the segments whose `start` satisfies
`s >= start_time and s < start_time + chunk_size_sec`. -/
def windowSlice (whisper_segments : List TranscriptSeg) (start_time : ℚ) :
    List TranscriptSeg :=
  whisper_segments.filter
    (fun seg => decide (start_time ≤ seg.start ∧
      seg.start < start_time + chunk_size_sec))

/-- `whisper_segments[-1]['end'] if whisper_segments else 0`. -/
def fileDuration (whisper_segments : List TranscriptSeg) : ℚ :=
  match whisper_segments.getLast? with
  | Option.some seg => seg.stop
  | Option.none => 0

/-- The chunk list built by `analyze_transcript`: one slice per window start,
dropping slices containing zero transcript segments. -/
def buildChunks (whisper_segments : List TranscriptSeg) :
    List (List TranscriptSeg) :=
  ((windowStarts (fileDuration whisper_segments)).map
    (windowSlice whisper_segments)).filter (fun c => !c.isEmpty)

/-- The window starts are exactly the multiples of the step that pass the
Python loop guard `start_time < file_duration`. -/
theorem mem_windowStarts (file_duration s : ℚ) :
    s ∈ windowStarts file_duration ↔
      ∃ i : ℕ, s = (chunk_size_sec - overlap_sec) * i ∧
        (chunk_size_sec - overlap_sec) * i < file_duration := by
  have hstep : (0:ℚ) < chunk_size_sec - overlap_sec := by
    norm_num [chunk_size_sec, overlap_sec]
  unfold windowStarts
  rw [List.mem_map]
  constructor
  · rintro ⟨i, hi, rfl⟩
    have h1 : (i : ℤ) < ⌈file_duration / (chunk_size_sec - overlap_sec)⌉ :=
      Int.lt_toNat.mp (List.mem_range.mp hi)
    have h2 : (i : ℚ) < file_duration / (chunk_size_sec - overlap_sec) :=
      Int.lt_ceil.mp (by exact_mod_cast h1)
    refine ⟨i, rfl, ?_⟩
    calc (chunk_size_sec - overlap_sec) * i
        < (chunk_size_sec - overlap_sec) *
          (file_duration / (chunk_size_sec - overlap_sec)) :=
          (mul_lt_mul_left hstep).mpr h2
      _ = file_duration := by field_simp
  · rintro ⟨i, rfl, hlt⟩
    have h2 : (i : ℚ) < file_duration / (chunk_size_sec - overlap_sec) :=
      (lt_div_iff₀ hstep).mpr
        (by linarith [mul_comm (chunk_size_sec - overlap_sec) (i:ℚ)])
    have h1 : (i : ℤ) < ⌈file_duration / (chunk_size_sec - overlap_sec)⌉ :=
      Int.lt_ceil.mpr (by exact_mod_cast h2)
    exact ⟨i, List.mem_range.mpr (Int.lt_toNat.mpr h1), rfl⟩

/-- A detection of the same ad at global time `[590, 600]`, as each of two
adjacent overlapping windows reports it. -/
def adSeg590 : Json :=
  Json.obj [("type", Json.str "ad"), ("start", Json.num 590),
    ("end", Json.num 600)]

/-- A normalized window response carrying the given segments. -/
def windowResponse (xs : List Json) : Json :=
  Json.obj [("segments_to_remove", Json.arr xs),
    ("transcript_segments", Json.arr [])]

/-- C4 counterexample: two detections of the same ad arriving from two
adjacent overlapping windows, agreeing exactly on `(kind, start, end)`, are
NOT deduplicated — `analyze_transcript` extends the accumulated remove-list
with every window's list, so the segment appears twice, not once. -/
theorem no_cross_window_dedup_counterexample :
    accumulate_remove_segments
        [windowResponse [adSeg590], windowResponse [adSeg590]] =
      Except.ok [adSeg590, adSeg590] ∧
    [adSeg590, adSeg590].length ≠ 1 := by
  exact ⟨rfl, by simp⟩

/-- C4 amended: chunking a transcript whose last segment ends at 1500 seconds
with `windowSeconds = 600` and `overlapSeconds = 60` produces analysis
windows starting at 0, 540, 1080, and windows containing zero transcript
segments are dropped; but NO cross-window deduplication is performed — the
accumulated remove-list is the plain concatenation of every window response's
`segments_to_remove` list, duplicates from overlapping windows included (the
downstream reconciler sweep absorbs the overlap by taking the union). -/
theorem window_starts_and_no_dedup :
    windowStarts 1500 = [0, 540, 1080] ∧
    buildChunks [⟨50, 60, "a"⟩, ⟨1490, 1500, "b"⟩] =
      [[⟨50, 60, "a"⟩], [⟨1490, 1500, "b"⟩]] ∧
    (∀ windows : List (List Json),
      accumulate_remove_segments (windows.map windowResponse) =
        Except.ok windows.flatten) := by
  have hstep : chunk_size_sec - overlap_sec = (540:ℚ) := by
    norm_num [chunk_size_sec, overlap_sec]
  have hceil : ⌈(1500:ℚ) / (chunk_size_sec - overlap_sec)⌉ = 3 := by
    rw [hstep, Int.ceil_eq_iff]
    constructor <;> norm_num
  have hws : windowStarts 1500 = [0, 540, 1080] := by
    unfold windowStarts
    rw [hceil]
    show [(chunk_size_sec - overlap_sec) * ((0:ℕ) : ℚ),
      (chunk_size_sec - overlap_sec) * ((1:ℕ) : ℚ),
      (chunk_size_sec - overlap_sec) * ((2:ℕ) : ℚ)] = [0, 540, 1080]
    rw [hstep]
    norm_num
  refine ⟨hws, ?_, ?_⟩
  · have hfd : fileDuration [⟨50, 60, "a"⟩, ⟨1490, 1500, "b"⟩] = 1500 := rfl
    unfold buildChunks
    rw [hfd, hws]
    have hs0 : windowSlice [⟨50, 60, "a"⟩, ⟨1490, 1500, "b"⟩] 0 =
        [⟨50, 60, "a"⟩] := by
      unfold windowSlice
      simp only [List.filter_cons, List.filter_nil]
      norm_num [chunk_size_sec]
    have hs1 : windowSlice [⟨50, 60, "a"⟩, ⟨1490, 1500, "b"⟩] 540 = [] := by
      unfold windowSlice
      simp only [List.filter_cons, List.filter_nil]
      norm_num [chunk_size_sec]
    have hs2 : windowSlice [⟨50, 60, "a"⟩, ⟨1490, 1500, "b"⟩] 1080 =
        [⟨1490, 1500, "b"⟩] := by
      unfold windowSlice
      simp only [List.filter_cons, List.filter_nil]
      norm_num [chunk_size_sec]
    rw [List.map_cons, List.map_cons, List.map_cons, List.map_nil,
      hs0, hs1, hs2]
    rfl
  · have key : ∀ (windows : List (List Json)) (acc : List Json),
        List.foldlM extend_remove_segments acc (windows.map windowResponse) =
          Except.ok (acc ++ windows.flatten) := by
      intro windows
      induction windows with
      | nil =>
        intro acc
        simp only [List.map_nil, List.foldlM_nil, List.flatten_nil,
          List.append_nil]
        rfl
      | cons w rest ih =>
        intro acc
        have hone : extend_remove_segments acc (windowResponse w) =
            Except.ok (acc ++ w) := rfl
        rw [List.map_cons, List.foldlM_cons, hone]
        show List.foldlM extend_remove_segments (acc ++ w)
            (rest.map windowResponse) = Except.ok (acc ++ (w :: rest).flatten)
        rw [ih (acc ++ w), List.flatten_cons, List.append_assoc]
    intro windows
    have h := key windows []
    unfold accumulate_remove_segments
    rw [h]
    simp

/-- C8: the detector-output normalization in `AIEngine._call_gemini_chunk`
never raises: decoded valid JSON is accepted as-is (a bare list is wrapped as
the segments list), and on malformed JSON the structural-scan recovery either
extracts the `segments_to_remove` sub-list or yields the empty segment list,
so the downstream accumulation proceeds as "no ads found for this window"
rather than failing the call. -/
theorem normalize_never_fails :
    (∀ recovered : Option (List Json),
      normalize_chunk_response Option.none recovered =
        windowResponse (recovered.getD [])) ∧
    (∀ (xs : List Json) (recovered : Option (List Json)),
      normalize_chunk_response (Option.some (Json.arr xs)) recovered =
        windowResponse xs) ∧
    (∀ (fields : List (String × Json)) (recovered : Option (List Json)),
      normalize_chunk_response (Option.some (Json.obj fields)) recovered =
        Json.obj fields) ∧
    (∀ (acc : List Json) (recovered : Option (List Json)),
      extend_remove_segments acc (normalize_chunk_response Option.none recovered) =
        Except.ok (acc ++ recovered.getD [])) ∧
    (∀ acc : List Json,
      extend_remove_segments acc
          (normalize_chunk_response Option.none Option.none) =
        Except.ok acc) := by
  refine ⟨fun recovered => rfl, fun xs recovered => rfl,
    fun fields recovered => rfl, fun acc recovered => rfl, fun acc => ?_⟩
  show Except.ok (acc ++ ([] : List Json)) = Except.ok acc
  rw [List.append_nil]
